import Mathlib

/-!
Verification of the limit order book in `src/main.rs`.

The source keeps two `BTreeMap<u64, VecDeque<Order>>` collections (`bids`,
`asks`), dispatches `add_order` to `match_buy_order` / `match_sell_order`,
and each routine loops: peek the best opposing price, stop if it does not
cross the incoming limit, otherwise trade FIFO against the queue at that
price, removing exhausted resting orders and emptied price levels, finally
parking any unfilled remainder on its own side.

Modelling choices (shallow embedding):
* `u64` prices/ids and `u32` quantities become `Nat`.  The only
  subtractions performed are `quantity -= trade_qty` with
  `trade_qty = min` of the two quantities, so truncated `Nat` subtraction
  agrees with the machine subtraction; this no-underflow fact is proved
  below.
* Each `BTreeMap` becomes an association list with strictly sorted keys.
  The ask side is kept ascending, so the source's `keys().next()` peek is
  the list head; the bid side is kept descending, so `keys().next_back()`
  is the list head.  `get_mut` is `findLevel?`, `remove` of the peeked
  best key drops the head, and
  `entry(price).or_insert_with(VecDeque::new).push_back(order.clone())`
  is the order-preserving insertion `insertBid` / `insertAsk`.
* The in-place `while` loops become structural recursion: `fillLevel` is
  the inner loop over one level's FIFO queue, `match_buy_loop` and
  `match_sell_loop` are the outer loops over price levels.  When the
  front resting order survives a trade step (`best_ask.quantity != 0`),
  the traded amount was the whole incoming quantity, so the source's
  loop guard exits on its next check; the embedding returns at that
  point with the identical state.
* Each trade step additionally records a `Fill` (the fill-record
  interface suggested by the specification) so per-step properties can
  be stated; the book evolution itself never depends on the fills.
-/

inductive OrderType where
  | Buy
  | Sell
deriving DecidableEq, Repr

structure Order where
  id : Nat
  order_type : OrderType
  price : Nat
  quantity : Nat
deriving DecidableEq, Repr

/-- One trade step: the maker is the resting order, the taker the incoming
order; `traded` units are exchanged, quantities recorded before and after. -/
structure Fill where
  price : Nat
  maker_id : Nat
  taker_before : Nat
  taker_after : Nat
  maker_before : Nat
  maker_after : Nat
  traded : Nat
deriving DecidableEq, Repr

/-- A price level: the FIFO queue (`VecDeque<Order>`) of resting orders. -/
abbrev Level := List Order

/-- One side of the book: `BTreeMap<u64, VecDeque<Order>>` as an
association list with strictly sorted keys (ascending for asks,
descending for bids, so the best price is always the head). -/
abbrev Side := List (Nat × Level)

/-- `BTreeMap::get` on the association-list model. -/
def findLevel? : Side → Nat → Option Level
  | [], _ => none
  | (k, lvl) :: rest, p => if k = p then some lvl else findLevel? rest p

structure OrderBook where
  bids : Side
  asks : Side
deriving DecidableEq, Repr

/-- `OrderBook::new()`. -/
def OrderBook.empty : OrderBook := ⟨[], []⟩

/-- `asks.entry(p).or_insert_with(VecDeque::new).push_back(o)` on the
ascending ask side. -/
def insertAsk : Side → Nat → Order → Side
  | [], p, o => [(p, [o])]
  | (k, lvl) :: rest, p, o =>
    if p < k then (p, [o]) :: (k, lvl) :: rest
    else if p = k then (k, lvl ++ [o]) :: rest
    else (k, lvl) :: insertAsk rest p o

/-- `bids.entry(p).or_insert_with(VecDeque::new).push_back(o)` on the
descending bid side. -/
def insertBid : Side → Nat → Order → Side
  | [], p, o => [(p, [o])]
  | (k, lvl) :: rest, p, o =>
    if k < p then (p, [o]) :: (k, lvl) :: rest
    else if p = k then (k, lvl ++ [o]) :: rest
    else (k, lvl) :: insertBid rest p o

/-- Inner matching loop of `match_buy_order` / `match_sell_order`
(`while order.quantity > 0 && !orders_at_level.is_empty()`): trade the
incoming quantity `q` against the FIFO queue at price `p`, popping fully
consumed resting orders.  Returns the remaining queue, the remaining
incoming quantity, and the fills executed. -/
def fillLevel (p : Nat) : Nat → Level → Level × Nat × List Fill
  | q, [] => ([], q, [])
  | q, front :: rest =>
    if q = 0 then (front :: rest, q, [])
    else
      let trade_qty := min q front.quantity
      let f : Fill :=
        ⟨p, front.id, q, q - trade_qty, front.quantity,
          front.quantity - trade_qty, trade_qty⟩
      if front.quantity - trade_qty = 0 then
        let res := fillLevel p (q - trade_qty) rest
        (res.1, res.2.1, f :: res.2.2)
      else
        ({ front with quantity := front.quantity - trade_qty } :: rest,
          q - trade_qty, [f])

/-- Outer loop of `match_buy_order` (`while order.quantity > 0`): peek the
cheapest ask (list head), break if it exceeds the buy limit, otherwise
trade against its queue and remove the level when emptied. -/
def match_buy_loop (limit : Nat) : Nat → Side → Side × Nat × List Fill
  | q, [] => ([], q, [])
  | q, (best_ask_price, lvl) :: rest =>
    if q = 0 then ((best_ask_price, lvl) :: rest, q, [])
    else if limit < best_ask_price then ((best_ask_price, lvl) :: rest, q, [])
    else
      let res := fillLevel best_ask_price q lvl
      if res.1.isEmpty then
        let res2 := match_buy_loop limit res.2.1 rest
        (res2.1, res2.2.1, res.2.2 ++ res2.2.2)
      else
        ((best_ask_price, res.1) :: rest, res.2.1, res.2.2)

/-- Outer loop of `match_sell_order`: peek the highest bid
(`keys().next_back()`, the head of the descending bid side), break if it
is below the sell limit, otherwise trade against its queue. -/
def match_sell_loop (limit : Nat) : Nat → Side → Side × Nat × List Fill
  | q, [] => ([], q, [])
  | q, (best_bid_price, lvl) :: rest =>
    if q = 0 then ((best_bid_price, lvl) :: rest, q, [])
    else if best_bid_price < limit then ((best_bid_price, lvl) :: rest, q, [])
    else
      let res := fillLevel best_bid_price q lvl
      if res.1.isEmpty then
        let res2 := match_sell_loop limit res.2.1 rest
        (res2.1, res2.2.1, res.2.2 ++ res2.2.2)
      else
        ((best_bid_price, res.1) :: rest, res.2.1, res.2.2)

/-- `OrderBook::match_buy_order`: run the matching loop against the asks,
then park the remainder (`if order.quantity > 0`) on the bid side. -/
def match_buy_order (book : OrderBook) (order : Order) : OrderBook × List Fill :=
  let res := match_buy_loop order.price order.quantity book.asks
  if 0 < res.2.1 then
    ({ bids := insertBid book.bids order.price { order with quantity := res.2.1 },
       asks := res.1 }, res.2.2)
  else
    ({ bids := book.bids, asks := res.1 }, res.2.2)

/-- `OrderBook::match_sell_order`: the mirror image. -/
def match_sell_order (book : OrderBook) (order : Order) : OrderBook × List Fill :=
  let res := match_sell_loop order.price order.quantity book.bids
  if 0 < res.2.1 then
    ({ bids := res.1,
       asks := insertAsk book.asks order.price { order with quantity := res.2.1 } }, res.2.2)
  else
    ({ bids := res.1, asks := book.asks }, res.2.2)

/-- `OrderBook::add_order`: dispatch on the order side. -/
def add_order (book : OrderBook) (order : Order) : OrderBook × List Fill :=
  match order.order_type with
  | OrderType.Buy => match_buy_order book order
  | OrderType.Sell => match_sell_order book order

/-- `add_order` viewed as a state transition (the fills are discarded,
as in the source, which returns `()`). -/
def addOrder1 (book : OrderBook) (order : Order) : OrderBook :=
  (add_order book order).1

/-- The side of the book an incoming order of the given type matches
against. -/
def oppSide (b : OrderBook) : OrderType → Side
  | OrderType.Buy => b.asks
  | OrderType.Sell => b.bids

/-- The side of the book an incoming order of the given type parks on. -/
def ownSide (b : OrderBook) : OrderType → Side
  | OrderType.Buy => b.bids
  | OrderType.Sell => b.asks

/-- Ask-side key invariant: strictly ascending prices. -/
def sortedAsc (s : Side) : Prop := List.Pairwise (fun a b => a.1 < b.1) s

/-- Bid-side key invariant: strictly descending prices. -/
def sortedDesc (s : Side) : Prop := List.Pairwise (fun a b => b.1 < a.1) s

/-- Level invariant of one side: every present price key maps to a
non-empty queue, and every resting order has positive quantity. -/
def sideWF (s : Side) : Prop := ∀ pl ∈ s, pl.2 ≠ [] ∧ ∀ o ∈ pl.2, 0 < o.quantity

/-- The book is not crossed: every resting bid price is strictly below
every resting ask price. -/
def NotCrossed (b : OrderBook) : Prop := ∀ pb ∈ b.bids, ∀ pa ∈ b.asks, pb.1 < pa.1

/-- All internal invariants of the book. -/
structure WF (b : OrderBook) : Prop where
  bidsSorted : sortedDesc b.bids
  asksSorted : sortedAsc b.asks
  bidsWF : sideWF b.bids
  asksWF : sideWF b.asks
  nocross : NotCrossed b

/-- A book state the program can actually produce: the result of folding
`add_order` over some order sequence starting from `OrderBook::new()`. -/
def Reachable (b : OrderBook) : Prop :=
  ∃ os : List Order, b = os.foldl addOrder1 OrderBook.empty

/-- Price-priority condition on a fill: a buy trades at or below its
limit, a sell at or above. -/
def fillPriceOK (o : Order) (f : Fill) : Prop :=
  match o.order_type with
  | OrderType.Buy => f.price ≤ o.price
  | OrderType.Sell => o.price ≤ f.price

/-- A resting level at price `p` crosses the incoming order `o`. -/
def levelCrosses (o : Order) (p : Nat) : Prop :=
  match o.order_type with
  | OrderType.Buy => p ≤ o.price
  | OrderType.Sell => o.price ≤ p

instance (o : Order) (p : Nat) : Decidable (levelCrosses o p) := by
  unfold levelCrosses
  cases o.order_type <;> exact inferInstance

/-- Number of resting orders on one side. -/
def sideOrderCount (s : Side) : Nat := (s.map (fun pl => pl.2.length)).sum

/-! ### Basic facts about `fillLevel` -/

lemma fillLevel_zero (p : Nat) (lvl : Level) : fillLevel p 0 lvl = (lvl, 0, []) := by
  cases lvl <;> simp [fillLevel]

lemma fillLevel_q_of_ne_nil (p q : Nat) (lvl : Level)
    (h : (fillLevel p q lvl).1 ≠ []) : (fillLevel p q lvl).2.1 = 0 := by
  induction lvl generalizing q with
  | nil => simp [fillLevel] at h
  | cons front rest ih =>
    by_cases hq : q = 0
    · subst hq; simp [fillLevel]
    · by_cases hm : front.quantity - min q front.quantity = 0
      · simp only [fillLevel, if_neg hq, if_pos hm] at h ⊢
        exact ih _ h
      · simp only [fillLevel, if_neg hq, if_neg hm]
        omega

lemma fillLevel_pos (p q : Nat) (lvl : Level)
    (h : ∀ o ∈ lvl, 0 < o.quantity) :
    ∀ o ∈ (fillLevel p q lvl).1, 0 < o.quantity := by
  induction lvl generalizing q with
  | nil => intro o ho; simp [fillLevel] at ho
  | cons front rest ih =>
    by_cases hq : q = 0
    · subst hq; simpa [fillLevel] using h
    · by_cases hm : front.quantity - min q front.quantity = 0
      · simp only [fillLevel, if_neg hq, if_pos hm]
        exact ih _ (fun x hx => h x (List.mem_cons_of_mem _ hx))
      · intro o ho
        simp only [fillLevel, if_neg hq, if_neg hm, List.mem_cons] at ho
        rcases ho with rfl | ho
        · exact Nat.pos_of_ne_zero hm
        · exact h o (List.mem_cons_of_mem _ ho)

lemma fillLevel_fills_len (p q : Nat) (lvl : Level) :
    (fillLevel p q lvl).2.2.length ≤ lvl.length := by
  induction lvl generalizing q with
  | nil => simp [fillLevel]
  | cons front rest ih =>
    by_cases hq : q = 0
    · subst hq; simp [fillLevel]
    · by_cases hm : front.quantity - min q front.quantity = 0
      · simp only [fillLevel, if_neg hq, if_pos hm, List.length_cons]
        exact Nat.succ_le_succ (ih _)
      · simp [fillLevel, if_neg hq, if_neg hm]

lemma fillLevel_fills_spec (p q : Nat) (lvl : Level) :
    ∀ f ∈ (fillLevel p q lvl).2.2,
      f.price = p ∧ f.traded = min f.taker_before f.maker_before ∧
      f.taker_after = f.taker_before - f.traded ∧
      f.maker_after = f.maker_before - f.traded := by
  induction lvl generalizing q with
  | nil => intro f hf; simp [fillLevel] at hf
  | cons front rest ih =>
    by_cases hq : q = 0
    · subst hq; intro f hf; simp [fillLevel] at hf
    · by_cases hm : front.quantity - min q front.quantity = 0
      · intro f hf
        simp only [fillLevel, if_neg hq, if_pos hm, List.mem_cons] at hf
        rcases hf with rfl | hf
        · exact ⟨rfl, rfl, rfl, rfl⟩
        · exact ih _ f hf
      · intro f hf
        simp only [fillLevel, if_neg hq, if_neg hm, List.mem_singleton] at hf
        subst hf
        exact ⟨rfl, rfl, rfl, rfl⟩

/-! ### Facts about the buy-side outer loop -/

lemma buy_loop_zero (limit : Nat) (s : Side) : match_buy_loop limit 0 s = (s, 0, []) := by
  cases s with
  | nil => simp [match_buy_loop]
  | cons hd tl => obtain ⟨k, lvl⟩ := hd; simp [match_buy_loop]

lemma buy_loop_sorted (limit q : Nat) (s : Side) (hs : sortedAsc s) :
    sortedAsc (match_buy_loop limit q s).1 := by
  induction s generalizing q with
  | nil => simpa [match_buy_loop] using hs
  | cons hd tl ih =>
    obtain ⟨k, lvl⟩ := hd
    by_cases hq : q = 0
    · simpa [match_buy_loop, hq] using hs
    · by_cases hc : limit < k
      · simpa [match_buy_loop, if_neg hq, if_pos hc] using hs
      · simp only [sortedAsc, List.pairwise_cons] at hs
        cases hres : (fillLevel k q lvl).1 with
        | nil =>
          simp only [match_buy_loop, if_neg hq, if_neg hc, hres, List.isEmpty_nil, if_pos rfl]
          exact ih _ hs.2
        | cons a as =>
          simp only [match_buy_loop, if_neg hq, if_neg hc, hres, List.isEmpty_cons,
            Bool.false_eq_true, if_false]
          simp only [sortedAsc, List.pairwise_cons]
          exact hs

lemma buy_loop_keys (limit q : Nat) (s : Side) :
    ∀ pl ∈ (match_buy_loop limit q s).1, ∃ pl' ∈ s, pl'.1 = pl.1 := by
  induction s generalizing q with
  | nil => intro pl hpl; simp [match_buy_loop] at hpl
  | cons hd tl ih =>
    obtain ⟨k, lvl⟩ := hd
    by_cases hq : q = 0
    · intro pl hpl
      simp only [match_buy_loop, if_pos hq] at hpl
      exact ⟨pl, hpl, rfl⟩
    · by_cases hc : limit < k
      · intro pl hpl
        simp only [match_buy_loop, if_neg hq, if_pos hc] at hpl
        exact ⟨pl, hpl, rfl⟩
      · cases hres : (fillLevel k q lvl).1 with
        | nil =>
          intro pl hpl
          simp only [match_buy_loop, if_neg hq, if_neg hc, hres, List.isEmpty_nil,
            if_pos rfl] at hpl
          obtain ⟨pl', hpl', hkey⟩ := ih _ pl hpl
          exact ⟨pl', List.mem_cons_of_mem _ hpl', hkey⟩
        | cons a as =>
          intro pl hpl
          simp only [match_buy_loop, if_neg hq, if_neg hc, hres, List.isEmpty_cons,
            Bool.false_eq_true, if_false, List.mem_cons] at hpl
          rcases hpl with rfl | hpl
          · exact ⟨(k, lvl), List.mem_cons_self _ _, rfl⟩
          · exact ⟨pl, List.mem_cons_of_mem _ hpl, rfl⟩

lemma buy_loop_park (limit q : Nat) (s : Side) (hs : sortedAsc s)
    (hq2 : 0 < (match_buy_loop limit q s).2.1) :
    ∀ pl ∈ (match_buy_loop limit q s).1, limit < pl.1 := by
  induction s generalizing q with
  | nil => intro pl hpl; simp [match_buy_loop] at hpl
  | cons hd tl ih =>
    obtain ⟨k, lvl⟩ := hd
    by_cases hq : q = 0
    · simp only [match_buy_loop, if_pos hq] at hq2
      omega
    · by_cases hc : limit < k
      · intro pl hpl
        simp only [match_buy_loop, if_neg hq, if_pos hc] at hpl
        simp only [sortedAsc, List.pairwise_cons] at hs
        rcases List.mem_cons.mp hpl with rfl | hpl
        · exact hc
        · exact lt_trans hc (hs.1 pl hpl)
      · simp only [sortedAsc, List.pairwise_cons] at hs
        cases hres : (fillLevel k q lvl).1 with
        | nil =>
          simp only [match_buy_loop, if_neg hq, if_neg hc, hres, List.isEmpty_nil,
            if_pos rfl] at hq2 ⊢
          exact ih _ hs.2 hq2
        | cons a as =>
          have h0 : (fillLevel k q lvl).2.1 = 0 := by
            apply fillLevel_q_of_ne_nil
            simp [hres]
          simp only [match_buy_loop, if_neg hq, if_neg hc, hres, List.isEmpty_cons,
            Bool.false_eq_true, if_false, h0] at hq2
          omega

lemma buy_loop_wf (limit q : Nat) (s : Side) (h : sideWF s) :
    sideWF (match_buy_loop limit q s).1 := by
  induction s generalizing q with
  | nil => intro pl hpl; simp [match_buy_loop] at hpl
  | cons hd tl ih =>
    obtain ⟨k, lvl⟩ := hd
    by_cases hq : q = 0
    · simpa [match_buy_loop, hq] using h
    · by_cases hc : limit < k
      · simpa [match_buy_loop, if_neg hq, if_pos hc] using h
      · have htl : sideWF tl := fun pl hpl => h pl (List.mem_cons_of_mem _ hpl)
        cases hres : (fillLevel k q lvl).1 with
        | nil =>
          simp only [match_buy_loop, if_neg hq, if_neg hc, hres, List.isEmpty_nil, if_pos rfl]
          exact ih _ htl
        | cons a as =>
          intro pl hpl
          simp only [match_buy_loop, if_neg hq, if_neg hc, hres, List.isEmpty_cons,
            Bool.false_eq_true, if_false, List.mem_cons] at hpl
          rcases hpl with rfl | hpl
          · refine ⟨by simp, ?_⟩
            have := fillLevel_pos k q lvl (h (k, lvl) (List.mem_cons_self _ _)).2
            rw [hres] at this
            exact this
          · exact htl pl hpl

lemma buy_loop_len (limit q : Nat) (s : Side) :
    (match_buy_loop limit q s).2.2.length ≤ sideOrderCount s := by
  induction s generalizing q with
  | nil => simp [match_buy_loop, sideOrderCount]
  | cons hd tl ih =>
    obtain ⟨k, lvl⟩ := hd
    by_cases hq : q = 0
    · simp [match_buy_loop, hq]
    · by_cases hc : limit < k
      · simp [match_buy_loop, if_neg hq, if_pos hc]
      · have hlvl := fillLevel_fills_len k q lvl
        cases hres : (fillLevel k q lvl).1 with
        | nil =>
          simp only [match_buy_loop, if_neg hq, if_neg hc, hres, List.isEmpty_nil,
            eq_self_iff_true, if_true, List.length_append, sideOrderCount, List.map_cons,
            List.sum_cons]
          have := ih (q := (fillLevel k q lvl).2.1)
          simp only [sideOrderCount] at this
          omega
        | cons a as =>
          simp only [match_buy_loop, if_neg hq, if_neg hc, hres, List.isEmpty_cons,
            Bool.false_eq_true, if_false, sideOrderCount, List.map_cons, List.sum_cons]
          omega

lemma buy_loop_fills (limit q : Nat) (s : Side) :
    ∀ f ∈ (match_buy_loop limit q s).2.2,
      f.price ≤ limit ∧ f.traded = min f.taker_before f.maker_before ∧
      f.taker_after = f.taker_before - f.traded ∧
      f.maker_after = f.maker_before - f.traded := by
  induction s generalizing q with
  | nil => intro f hf; simp [match_buy_loop] at hf
  | cons hd tl ih =>
    obtain ⟨k, lvl⟩ := hd
    by_cases hq : q = 0
    · intro f hf; simp [match_buy_loop, hq] at hf
    · by_cases hc : limit < k
      · intro f hf; simp [match_buy_loop, if_neg hq, if_pos hc] at hf
      · have hspec := fillLevel_fills_spec k q lvl
        cases hres : (fillLevel k q lvl).1 with
        | nil =>
          intro f hf
          simp only [match_buy_loop, if_neg hq, if_neg hc, hres, List.isEmpty_nil,
            eq_self_iff_true, if_true, List.mem_append] at hf
          rcases hf with hf | hf
          · obtain ⟨hp, hrest⟩ := hspec f hf
            exact ⟨by omega, hrest⟩
          · exact ih _ f hf
        | cons a as =>
          intro f hf
          simp only [match_buy_loop, if_neg hq, if_neg hc, hres, List.isEmpty_cons,
            Bool.false_eq_true, if_false] at hf
          obtain ⟨hp, hrest⟩ := hspec f hf
          exact ⟨by omega, hrest⟩

lemma buy_loop_nocross (limit q : Nat) (s : Side) (h : ∀ pl ∈ s, limit < pl.1) :
    match_buy_loop limit q s = (s, q, []) := by
  cases s with
  | nil => simp [match_buy_loop]
  | cons hd tl =>
    obtain ⟨k, lvl⟩ := hd
    by_cases hq : q = 0
    · simp [match_buy_loop, hq]
    · have hc : limit < k := h (k, lvl) (List.mem_cons_self _ _)
      simp [match_buy_loop, if_neg hq, if_pos hc]

lemma buy_loop_untouched (limit q : Nat) (s : Side) :
    ∀ pl ∈ s, limit < pl.1 → pl ∈ (match_buy_loop limit q s).1 := by
  induction s generalizing q with
  | nil => intro pl hpl; simp at hpl
  | cons hd tl ih =>
    obtain ⟨k, lvl⟩ := hd
    by_cases hq : q = 0
    · intro pl hpl hlt
      simpa [match_buy_loop, hq] using hpl
    · by_cases hc : limit < k
      · intro pl hpl hlt
        simpa [match_buy_loop, if_neg hq, if_pos hc] using hpl
      · intro pl hpl hlt
        rcases List.mem_cons.mp hpl with rfl | hpl
        · exact absurd hlt hc
        · cases hres : (fillLevel k q lvl).1 with
          | nil =>
            simp only [match_buy_loop, if_neg hq, if_neg hc, hres, List.isEmpty_nil, if_pos rfl]
            exact ih _ pl hpl hlt
          | cons a as =>
            simp only [match_buy_loop, if_neg hq, if_neg hc, hres, List.isEmpty_cons,
              Bool.false_eq_true, if_false]
            exact List.mem_cons_of_mem _ hpl

/-! ### Facts about the sell-side outer loop (mirror image) -/

lemma sell_loop_zero (limit : Nat) (s : Side) : match_sell_loop limit 0 s = (s, 0, []) := by
  cases s with
  | nil => simp [match_sell_loop]
  | cons hd tl => obtain ⟨k, lvl⟩ := hd; simp [match_sell_loop]

lemma sell_loop_sorted (limit q : Nat) (s : Side) (hs : sortedDesc s) :
    sortedDesc (match_sell_loop limit q s).1 := by
  induction s generalizing q with
  | nil => simpa [match_sell_loop] using hs
  | cons hd tl ih =>
    obtain ⟨k, lvl⟩ := hd
    by_cases hq : q = 0
    · simpa [match_sell_loop, hq] using hs
    · by_cases hc : k < limit
      · simpa [match_sell_loop, if_neg hq, if_pos hc] using hs
      · simp only [sortedDesc, List.pairwise_cons] at hs
        cases hres : (fillLevel k q lvl).1 with
        | nil =>
          simp only [match_sell_loop, if_neg hq, if_neg hc, hres, List.isEmpty_nil,
            eq_self_iff_true, if_true]
          exact ih _ hs.2
        | cons a as =>
          simp only [match_sell_loop, if_neg hq, if_neg hc, hres, List.isEmpty_cons,
            Bool.false_eq_true, if_false]
          simp only [sortedDesc, List.pairwise_cons]
          exact hs

lemma sell_loop_keys (limit q : Nat) (s : Side) :
    ∀ pl ∈ (match_sell_loop limit q s).1, ∃ pl' ∈ s, pl'.1 = pl.1 := by
  induction s generalizing q with
  | nil => intro pl hpl; simp [match_sell_loop] at hpl
  | cons hd tl ih =>
    obtain ⟨k, lvl⟩ := hd
    by_cases hq : q = 0
    · intro pl hpl
      simp only [match_sell_loop, if_pos hq] at hpl
      exact ⟨pl, hpl, rfl⟩
    · by_cases hc : k < limit
      · intro pl hpl
        simp only [match_sell_loop, if_neg hq, if_pos hc] at hpl
        exact ⟨pl, hpl, rfl⟩
      · cases hres : (fillLevel k q lvl).1 with
        | nil =>
          intro pl hpl
          simp only [match_sell_loop, if_neg hq, if_neg hc, hres, List.isEmpty_nil,
            eq_self_iff_true, if_true] at hpl
          obtain ⟨pl', hpl', hkey⟩ := ih _ pl hpl
          exact ⟨pl', List.mem_cons_of_mem _ hpl', hkey⟩
        | cons a as =>
          intro pl hpl
          simp only [match_sell_loop, if_neg hq, if_neg hc, hres, List.isEmpty_cons,
            Bool.false_eq_true, if_false, List.mem_cons] at hpl
          rcases hpl with rfl | hpl
          · exact ⟨(k, lvl), List.mem_cons_self _ _, rfl⟩
          · exact ⟨pl, List.mem_cons_of_mem _ hpl, rfl⟩

lemma sell_loop_park (limit q : Nat) (s : Side) (hs : sortedDesc s)
    (hq2 : 0 < (match_sell_loop limit q s).2.1) :
    ∀ pl ∈ (match_sell_loop limit q s).1, pl.1 < limit := by
  induction s generalizing q with
  | nil => intro pl hpl; simp [match_sell_loop] at hpl
  | cons hd tl ih =>
    obtain ⟨k, lvl⟩ := hd
    by_cases hq : q = 0
    · simp only [match_sell_loop, if_pos hq] at hq2
      omega
    · by_cases hc : k < limit
      · intro pl hpl
        simp only [match_sell_loop, if_neg hq, if_pos hc] at hpl
        simp only [sortedDesc, List.pairwise_cons] at hs
        rcases List.mem_cons.mp hpl with rfl | hpl
        · exact hc
        · exact lt_trans (hs.1 pl hpl) hc
      · simp only [sortedDesc, List.pairwise_cons] at hs
        cases hres : (fillLevel k q lvl).1 with
        | nil =>
          simp only [match_sell_loop, if_neg hq, if_neg hc, hres, List.isEmpty_nil,
            eq_self_iff_true, if_true] at hq2 ⊢
          exact ih _ hs.2 hq2
        | cons a as =>
          have h0 : (fillLevel k q lvl).2.1 = 0 := by
            apply fillLevel_q_of_ne_nil
            simp [hres]
          simp only [match_sell_loop, if_neg hq, if_neg hc, hres, List.isEmpty_cons,
            Bool.false_eq_true, if_false, h0] at hq2
          omega

lemma sell_loop_wf (limit q : Nat) (s : Side) (h : sideWF s) :
    sideWF (match_sell_loop limit q s).1 := by
  induction s generalizing q with
  | nil => intro pl hpl; simp [match_sell_loop] at hpl
  | cons hd tl ih =>
    obtain ⟨k, lvl⟩ := hd
    by_cases hq : q = 0
    · simpa [match_sell_loop, hq] using h
    · by_cases hc : k < limit
      · simpa [match_sell_loop, if_neg hq, if_pos hc] using h
      · have htl : sideWF tl := fun pl hpl => h pl (List.mem_cons_of_mem _ hpl)
        cases hres : (fillLevel k q lvl).1 with
        | nil =>
          simp only [match_sell_loop, if_neg hq, if_neg hc, hres, List.isEmpty_nil,
            eq_self_iff_true, if_true]
          exact ih _ htl
        | cons a as =>
          intro pl hpl
          simp only [match_sell_loop, if_neg hq, if_neg hc, hres, List.isEmpty_cons,
            Bool.false_eq_true, if_false, List.mem_cons] at hpl
          rcases hpl with rfl | hpl
          · refine ⟨by simp, ?_⟩
            have := fillLevel_pos k q lvl (h (k, lvl) (List.mem_cons_self _ _)).2
            rw [hres] at this
            exact this
          · exact htl pl hpl

lemma sell_loop_len (limit q : Nat) (s : Side) :
    (match_sell_loop limit q s).2.2.length ≤ sideOrderCount s := by
  induction s generalizing q with
  | nil => simp [match_sell_loop, sideOrderCount]
  | cons hd tl ih =>
    obtain ⟨k, lvl⟩ := hd
    by_cases hq : q = 0
    · simp [match_sell_loop, hq]
    · by_cases hc : k < limit
      · simp [match_sell_loop, if_neg hq, if_pos hc]
      · have hlvl := fillLevel_fills_len k q lvl
        cases hres : (fillLevel k q lvl).1 with
        | nil =>
          simp only [match_sell_loop, if_neg hq, if_neg hc, hres, List.isEmpty_nil,
            eq_self_iff_true, if_true, List.length_append, sideOrderCount, List.map_cons,
            List.sum_cons]
          have := ih (q := (fillLevel k q lvl).2.1)
          simp only [sideOrderCount] at this
          omega
        | cons a as =>
          simp only [match_sell_loop, if_neg hq, if_neg hc, hres, List.isEmpty_cons,
            Bool.false_eq_true, if_false, sideOrderCount, List.map_cons, List.sum_cons]
          omega

lemma sell_loop_fills (limit q : Nat) (s : Side) :
    ∀ f ∈ (match_sell_loop limit q s).2.2,
      limit ≤ f.price ∧ f.traded = min f.taker_before f.maker_before ∧
      f.taker_after = f.taker_before - f.traded ∧
      f.maker_after = f.maker_before - f.traded := by
  induction s generalizing q with
  | nil => intro f hf; simp [match_sell_loop] at hf
  | cons hd tl ih =>
    obtain ⟨k, lvl⟩ := hd
    by_cases hq : q = 0
    · intro f hf; simp [match_sell_loop, hq] at hf
    · by_cases hc : k < limit
      · intro f hf; simp [match_sell_loop, if_neg hq, if_pos hc] at hf
      · have hspec := fillLevel_fills_spec k q lvl
        cases hres : (fillLevel k q lvl).1 with
        | nil =>
          intro f hf
          simp only [match_sell_loop, if_neg hq, if_neg hc, hres, List.isEmpty_nil,
            eq_self_iff_true, if_true, List.mem_append] at hf
          rcases hf with hf | hf
          · obtain ⟨hp, hrest⟩ := hspec f hf
            exact ⟨by omega, hrest⟩
          · exact ih _ f hf
        | cons a as =>
          intro f hf
          simp only [match_sell_loop, if_neg hq, if_neg hc, hres, List.isEmpty_cons,
            Bool.false_eq_true, if_false] at hf
          obtain ⟨hp, hrest⟩ := hspec f hf
          exact ⟨by omega, hrest⟩

lemma sell_loop_nocross (limit q : Nat) (s : Side) (h : ∀ pl ∈ s, pl.1 < limit) :
    match_sell_loop limit q s = (s, q, []) := by
  cases s with
  | nil => simp [match_sell_loop]
  | cons hd tl =>
    obtain ⟨k, lvl⟩ := hd
    by_cases hq : q = 0
    · simp [match_sell_loop, hq]
    · have hc : k < limit := h (k, lvl) (List.mem_cons_self _ _)
      simp [match_sell_loop, if_neg hq, if_pos hc]

lemma sell_loop_untouched (limit q : Nat) (s : Side) :
    ∀ pl ∈ s, pl.1 < limit → pl ∈ (match_sell_loop limit q s).1 := by
  induction s generalizing q with
  | nil => intro pl hpl; simp at hpl
  | cons hd tl ih =>
    obtain ⟨k, lvl⟩ := hd
    by_cases hq : q = 0
    · intro pl hpl hlt
      simpa [match_sell_loop, hq] using hpl
    · by_cases hc : k < limit
      · intro pl hpl hlt
        simpa [match_sell_loop, if_neg hq, if_pos hc] using hpl
      · intro pl hpl hlt
        rcases List.mem_cons.mp hpl with rfl | hpl
        · exact absurd hlt hc
        · cases hres : (fillLevel k q lvl).1 with
          | nil =>
            simp only [match_sell_loop, if_neg hq, if_neg hc, hres, List.isEmpty_nil,
              eq_self_iff_true, if_true]
            exact ih _ pl hpl hlt
          | cons a as =>
            simp only [match_sell_loop, if_neg hq, if_neg hc, hres, List.isEmpty_cons,
              Bool.false_eq_true, if_false]
            exact List.mem_cons_of_mem _ hpl

/-! ### Facts about parking insertions -/

lemma findLevel?_eq_none (s : Side) (p : Nat) (h : ∀ pl ∈ s, p ≠ pl.1) :
    findLevel? s p = none := by
  induction s with
  | nil => rfl
  | cons hd tl ih =>
    obtain ⟨k, lvl⟩ := hd
    have hk : k ≠ p := fun hkp => h (k, lvl) (List.mem_cons_self _ _) hkp.symm
    simp only [findLevel?, if_neg hk]
    exact ih fun pl hpl => h pl (List.mem_cons_of_mem _ hpl)

lemma insertAsk_keys (s : Side) (p : Nat) (o : Order) :
    ∀ pl ∈ insertAsk s p o, pl.1 = p ∨ ∃ pl' ∈ s, pl'.1 = pl.1 := by
  induction s with
  | nil =>
    intro pl hpl
    simp only [insertAsk, List.mem_singleton] at hpl
    subst hpl
    exact Or.inl rfl
  | cons hd tl ih =>
    obtain ⟨k, lvl⟩ := hd
    intro pl hpl
    by_cases h1 : p < k
    · simp only [insertAsk, if_pos h1, List.mem_cons] at hpl
      rcases hpl with rfl | hpl
      · exact Or.inl rfl
      · exact Or.inr ⟨pl, List.mem_cons.mpr hpl, rfl⟩
    · by_cases h2 : p = k
      · simp only [insertAsk, if_neg h1, if_pos h2, List.mem_cons] at hpl
        rcases hpl with rfl | hpl
        · exact Or.inr ⟨(k, lvl), List.mem_cons_self _ _, rfl⟩
        · exact Or.inr ⟨pl, List.mem_cons_of_mem _ hpl, rfl⟩
      · simp only [insertAsk, if_neg h1, if_neg h2, List.mem_cons] at hpl
        rcases hpl with rfl | hpl
        · exact Or.inr ⟨(k, lvl), List.mem_cons_self _ _, rfl⟩
        · rcases ih pl hpl with h | ⟨pl', hpl', hkey⟩
          · exact Or.inl h
          · exact Or.inr ⟨pl', List.mem_cons_of_mem _ hpl', hkey⟩

lemma insertBid_keys (s : Side) (p : Nat) (o : Order) :
    ∀ pl ∈ insertBid s p o, pl.1 = p ∨ ∃ pl' ∈ s, pl'.1 = pl.1 := by
  induction s with
  | nil =>
    intro pl hpl
    simp only [insertBid, List.mem_singleton] at hpl
    subst hpl
    exact Or.inl rfl
  | cons hd tl ih =>
    obtain ⟨k, lvl⟩ := hd
    intro pl hpl
    by_cases h1 : k < p
    · simp only [insertBid, if_pos h1, List.mem_cons] at hpl
      rcases hpl with rfl | hpl
      · exact Or.inl rfl
      · exact Or.inr ⟨pl, List.mem_cons.mpr hpl, rfl⟩
    · by_cases h2 : p = k
      · simp only [insertBid, if_neg h1, if_pos h2, List.mem_cons] at hpl
        rcases hpl with rfl | hpl
        · exact Or.inr ⟨(k, lvl), List.mem_cons_self _ _, rfl⟩
        · exact Or.inr ⟨pl, List.mem_cons_of_mem _ hpl, rfl⟩
      · simp only [insertBid, if_neg h1, if_neg h2, List.mem_cons] at hpl
        rcases hpl with rfl | hpl
        · exact Or.inr ⟨(k, lvl), List.mem_cons_self _ _, rfl⟩
        · rcases ih pl hpl with h | ⟨pl', hpl', hkey⟩
          · exact Or.inl h
          · exact Or.inr ⟨pl', List.mem_cons_of_mem _ hpl', hkey⟩

lemma insertAsk_sorted (s : Side) (p : Nat) (o : Order) (hs : sortedAsc s) :
    sortedAsc (insertAsk s p o) := by
  induction s with
  | nil => simp [insertAsk, sortedAsc]
  | cons hd tl ih =>
    obtain ⟨k, lvl⟩ := hd
    simp only [sortedAsc, List.pairwise_cons] at hs
    by_cases h1 : p < k
    · simp only [insertAsk, if_pos h1, sortedAsc, List.pairwise_cons]
      refine ⟨?_, hs.1, hs.2⟩
      intro pl hpl
      rcases List.mem_cons.mp hpl with rfl | hpl
      · exact h1
      · exact lt_trans h1 (hs.1 pl hpl)
    · by_cases h2 : p = k
      · simp only [insertAsk, if_neg h1, if_pos h2, sortedAsc, List.pairwise_cons]
        exact hs
      · simp only [insertAsk, if_neg h1, if_neg h2, sortedAsc, List.pairwise_cons]
        refine ⟨?_, ih hs.2⟩
        intro pl hpl
        rcases insertAsk_keys tl p o pl hpl with hkey | ⟨pl', hpl', hkey⟩
        · rw [hkey]; omega
        · rw [← hkey]; exact hs.1 pl' hpl'

lemma insertBid_sorted (s : Side) (p : Nat) (o : Order) (hs : sortedDesc s) :
    sortedDesc (insertBid s p o) := by
  induction s with
  | nil => simp [insertBid, sortedDesc]
  | cons hd tl ih =>
    obtain ⟨k, lvl⟩ := hd
    simp only [sortedDesc, List.pairwise_cons] at hs
    by_cases h1 : k < p
    · simp only [insertBid, if_pos h1, sortedDesc, List.pairwise_cons]
      refine ⟨?_, hs.1, hs.2⟩
      intro pl hpl
      rcases List.mem_cons.mp hpl with rfl | hpl
      · exact h1
      · exact lt_trans (hs.1 pl hpl) h1
    · by_cases h2 : p = k
      · simp only [insertBid, if_neg h1, if_pos h2, sortedDesc, List.pairwise_cons]
        exact hs
      · simp only [insertBid, if_neg h1, if_neg h2, sortedDesc, List.pairwise_cons]
        refine ⟨?_, ih hs.2⟩
        intro pl hpl
        rcases insertBid_keys tl p o pl hpl with hkey | ⟨pl', hpl', hkey⟩
        · rw [hkey]; omega
        · rw [← hkey]; exact hs.1 pl' hpl'

lemma insertAsk_wf (s : Side) (p : Nat) (o : Order) (hs : sideWF s)
    (ho : 0 < o.quantity) : sideWF (insertAsk s p o) := by
  induction s with
  | nil =>
    intro pl hpl
    simp only [insertAsk, List.mem_singleton] at hpl
    subst hpl
    exact ⟨by simp, by simpa using ho⟩
  | cons hd tl ih =>
    obtain ⟨k, lvl⟩ := hd
    have hhd := hs (k, lvl) (List.mem_cons_self _ _)
    have htl : sideWF tl := fun pl hpl => hs pl (List.mem_cons_of_mem _ hpl)
    intro pl hpl
    by_cases h1 : p < k
    · simp only [insertAsk, if_pos h1, List.mem_cons] at hpl
      rcases hpl with rfl | hpl
      · exact ⟨by simp, by simpa using ho⟩
      · exact hs pl (List.mem_cons.mpr hpl)
    · by_cases h2 : p = k
      · simp only [insertAsk, if_neg h1, if_pos h2, List.mem_cons] at hpl
        rcases hpl with rfl | hpl
        · refine ⟨by simp, ?_⟩
          intro x hx
          rcases List.mem_append.mp hx with hx | hx
          · exact hhd.2 x hx
          · rw [List.mem_singleton.mp hx]; exact ho
        · exact htl pl hpl
      · simp only [insertAsk, if_neg h1, if_neg h2, List.mem_cons] at hpl
        rcases hpl with rfl | hpl
        · exact hhd
        · exact ih htl pl hpl

lemma insertBid_wf (s : Side) (p : Nat) (o : Order) (hs : sideWF s)
    (ho : 0 < o.quantity) : sideWF (insertBid s p o) := by
  induction s with
  | nil =>
    intro pl hpl
    simp only [insertBid, List.mem_singleton] at hpl
    subst hpl
    exact ⟨by simp, by simpa using ho⟩
  | cons hd tl ih =>
    obtain ⟨k, lvl⟩ := hd
    have hhd := hs (k, lvl) (List.mem_cons_self _ _)
    have htl : sideWF tl := fun pl hpl => hs pl (List.mem_cons_of_mem _ hpl)
    intro pl hpl
    by_cases h1 : k < p
    · simp only [insertBid, if_pos h1, List.mem_cons] at hpl
      rcases hpl with rfl | hpl
      · exact ⟨by simp, by simpa using ho⟩
      · exact hs pl (List.mem_cons.mpr hpl)
    · by_cases h2 : p = k
      · simp only [insertBid, if_neg h1, if_pos h2, List.mem_cons] at hpl
        rcases hpl with rfl | hpl
        · refine ⟨by simp, ?_⟩
          intro x hx
          rcases List.mem_append.mp hx with hx | hx
          · exact hhd.2 x hx
          · rw [List.mem_singleton.mp hx]; exact ho
        · exact htl pl hpl
      · simp only [insertBid, if_neg h1, if_neg h2, List.mem_cons] at hpl
        rcases hpl with rfl | hpl
        · exact hhd
        · exact ih htl pl hpl

lemma findLevel?_insertAsk_self (s : Side) (p : Nat) (o : Order) (hs : sortedAsc s) :
    findLevel? (insertAsk s p o) p = some ((findLevel? s p).getD [] ++ [o]) := by
  induction s with
  | nil => simp [insertAsk, findLevel?]
  | cons hd tl ih =>
    obtain ⟨k, lvl⟩ := hd
    simp only [sortedAsc, List.pairwise_cons] at hs
    by_cases h1 : p < k
    · have hnone : findLevel? ((k, lvl) :: tl) p = none := by
        apply findLevel?_eq_none
        intro pl hpl
        rcases List.mem_cons.mp hpl with rfl | hpl
        · omega
        · have := hs.1 pl hpl
          omega
      rw [hnone]
      simp [insertAsk, if_pos h1, findLevel?]
    · by_cases h2 : p = k
      · subst h2
        simp [insertAsk, findLevel?, if_neg h1]
      · have hk : k ≠ p := fun h => h2 h.symm
        simp only [insertAsk, if_neg h1, if_neg h2, findLevel?, if_neg hk]
        exact ih hs.2

lemma findLevel?_insertBid_self (s : Side) (p : Nat) (o : Order) (hs : sortedDesc s) :
    findLevel? (insertBid s p o) p = some ((findLevel? s p).getD [] ++ [o]) := by
  induction s with
  | nil => simp [insertBid, findLevel?]
  | cons hd tl ih =>
    obtain ⟨k, lvl⟩ := hd
    simp only [sortedDesc, List.pairwise_cons] at hs
    by_cases h1 : k < p
    · have hnone : findLevel? ((k, lvl) :: tl) p = none := by
        apply findLevel?_eq_none
        intro pl hpl
        rcases List.mem_cons.mp hpl with rfl | hpl
        · omega
        · have := hs.1 pl hpl
          omega
      rw [hnone]
      simp [insertBid, if_pos h1, findLevel?]
    · by_cases h2 : p = k
      · subst h2
        simp [insertBid, findLevel?, if_neg h1]
      · have hk : k ≠ p := fun h => h2 h.symm
        simp only [insertBid, if_neg h1, if_neg h2, findLevel?, if_neg hk]
        exact ih hs.2

lemma findLevel?_insertAsk_ne (s : Side) (p : Nat) (o : Order) (x : Nat) (hx : x ≠ p) :
    findLevel? (insertAsk s p o) x = findLevel? s x := by
  induction s with
  | nil =>
    have hp : p ≠ x := fun h => hx h.symm
    simp [insertAsk, findLevel?, hp]
  | cons hd tl ih =>
    obtain ⟨k, lvl⟩ := hd
    by_cases h1 : p < k
    · have hp : p ≠ x := fun h => hx h.symm
      simp only [insertAsk, if_pos h1, findLevel?, if_neg hp]
    · by_cases h2 : p = k
      · subst h2
        have hp : p ≠ x := fun h => hx h.symm
        simp only [insertAsk, if_neg h1, if_pos rfl, findLevel?, if_neg hp]
      · by_cases h3 : k = x
        · simp only [insertAsk, if_neg h1, if_neg h2, findLevel?, if_pos h3]
        · simp only [insertAsk, if_neg h1, if_neg h2, findLevel?, if_neg h3]
          exact ih

lemma findLevel?_insertBid_ne (s : Side) (p : Nat) (o : Order) (x : Nat) (hx : x ≠ p) :
    findLevel? (insertBid s p o) x = findLevel? s x := by
  induction s with
  | nil =>
    have hp : p ≠ x := fun h => hx h.symm
    simp [insertBid, findLevel?, hp]
  | cons hd tl ih =>
    obtain ⟨k, lvl⟩ := hd
    by_cases h1 : k < p
    · have hp : p ≠ x := fun h => hx h.symm
      simp only [insertBid, if_pos h1, findLevel?, if_neg hp]
    · by_cases h2 : p = k
      · subst h2
        have hp : p ≠ x := fun h => hx h.symm
        simp only [insertBid, if_neg h1, if_pos rfl, findLevel?, if_neg hp]
      · by_cases h3 : k = x
        · simp only [insertBid, if_neg h1, if_neg h2, findLevel?, if_pos h3]
        · simp only [insertBid, if_neg h1, if_neg h2, findLevel?, if_neg h3]
          exact ih

/-! ### Preservation of the book invariants -/

lemma WF_match_buy (b : OrderBook) (o : Order) (h : WF b) :
    WF ((match_buy_order b o).1) := by
  by_cases hq : 0 < (match_buy_loop o.price o.quantity b.asks).2.1
  · simp only [match_buy_order, if_pos hq]
    refine ⟨?_, ?_, ?_, ?_, ?_⟩
    · exact insertBid_sorted _ _ _ h.bidsSorted
    · exact buy_loop_sorted _ _ _ h.asksSorted
    · exact insertBid_wf _ _ _ h.bidsWF hq
    · exact buy_loop_wf _ _ _ h.asksWF
    · intro pb hpb pa hpa
      rcases insertBid_keys _ _ _ pb hpb with hkey | ⟨pb', hpb', hkey⟩
      · have hpark := buy_loop_park o.price o.quantity b.asks h.asksSorted hq pa hpa
        omega
      · obtain ⟨pa', hpa', hkey'⟩ := buy_loop_keys o.price o.quantity b.asks pa hpa
        have := h.nocross pb' hpb' pa' hpa'
        omega
  · simp only [match_buy_order, if_neg hq]
    refine ⟨h.bidsSorted, buy_loop_sorted _ _ _ h.asksSorted, h.bidsWF,
      buy_loop_wf _ _ _ h.asksWF, ?_⟩
    intro pb hpb pa hpa
    obtain ⟨pa', hpa', hkey'⟩ := buy_loop_keys o.price o.quantity b.asks pa hpa
    have := h.nocross pb hpb pa' hpa'
    omega

lemma WF_match_sell (b : OrderBook) (o : Order) (h : WF b) :
    WF ((match_sell_order b o).1) := by
  by_cases hq : 0 < (match_sell_loop o.price o.quantity b.bids).2.1
  · simp only [match_sell_order, if_pos hq]
    refine ⟨?_, ?_, ?_, ?_, ?_⟩
    · exact sell_loop_sorted _ _ _ h.bidsSorted
    · exact insertAsk_sorted _ _ _ h.asksSorted
    · exact sell_loop_wf _ _ _ h.bidsWF
    · exact insertAsk_wf _ _ _ h.asksWF hq
    · intro pb hpb pa hpa
      rcases insertAsk_keys _ _ _ pa hpa with hkey | ⟨pa', hpa', hkey⟩
      · have hpark := sell_loop_park o.price o.quantity b.bids h.bidsSorted hq pb hpb
        omega
      · obtain ⟨pb', hpb', hkey'⟩ := sell_loop_keys o.price o.quantity b.bids pb hpb
        have := h.nocross pb' hpb' pa' hpa'
        omega
  · simp only [match_sell_order, if_neg hq]
    refine ⟨sell_loop_sorted _ _ _ h.bidsSorted, h.asksSorted,
      sell_loop_wf _ _ _ h.bidsWF, h.asksWF, ?_⟩
    intro pb hpb pa hpa
    obtain ⟨pb', hpb', hkey'⟩ := sell_loop_keys o.price o.quantity b.bids pb hpb
    have := h.nocross pb' hpb' pa hpa
    omega

lemma WF_step (b : OrderBook) (o : Order) (h : WF b) : WF ((add_order b o).1) := by
  cases ht : o.order_type with
  | Buy =>
    simp only [add_order, ht]
    exact WF_match_buy b o h
  | Sell =>
    simp only [add_order, ht]
    exact WF_match_sell b o h

lemma WF_empty : WF OrderBook.empty := by
  refine ⟨?_, ?_, ?_, ?_, ?_⟩ <;>
    simp [OrderBook.empty, sortedDesc, sortedAsc, sideWF, NotCrossed]

lemma foldl_WF (os : List Order) : ∀ b : OrderBook, WF b → WF (os.foldl addOrder1 b) := by
  induction os with
  | nil => intro b h; simpa using h
  | cons o os ih =>
    intro b h
    simp only [List.foldl_cons]
    exact ih _ (WF_step b o h)

lemma reachable_WF (b : OrderBook) (hb : Reachable b) : WF b := by
  obtain ⟨os, rfl⟩ := hb
  exact foldl_WF os OrderBook.empty WF_empty

lemma add_order_fills_spec (b : OrderBook) (o : Order) :
    ∀ f ∈ (add_order b o).2,
      fillPriceOK o f ∧ f.traded = min f.taker_before f.maker_before ∧
      f.taker_after = f.taker_before - f.traded ∧
      f.maker_after = f.maker_before - f.traded := by
  intro f hf
  cases ht : o.order_type with
  | Buy =>
    simp only [add_order, ht, match_buy_order] at hf
    by_cases hq : 0 < (match_buy_loop o.price o.quantity b.asks).2.1
    · simp only [if_pos hq] at hf
      obtain ⟨hp, hrest⟩ := buy_loop_fills o.price o.quantity b.asks f hf
      refine ⟨?_, hrest⟩
      simp only [fillPriceOK, ht]
      exact hp
    · simp only [if_neg hq] at hf
      obtain ⟨hp, hrest⟩ := buy_loop_fills o.price o.quantity b.asks f hf
      refine ⟨?_, hrest⟩
      simp only [fillPriceOK, ht]
      exact hp
  | Sell =>
    simp only [add_order, ht, match_sell_order] at hf
    by_cases hq : 0 < (match_sell_loop o.price o.quantity b.bids).2.1
    · simp only [if_pos hq] at hf
      obtain ⟨hp, hrest⟩ := sell_loop_fills o.price o.quantity b.bids f hf
      refine ⟨?_, hrest⟩
      simp only [fillPriceOK, ht]
      exact hp
    · simp only [if_neg hq] at hf
      obtain ⟨hp, hrest⟩ := sell_loop_fills o.price o.quantity b.bids f hf
      refine ⟨?_, hrest⟩
      simp only [fillPriceOK, ht]
      exact hp

/-! ### Concrete data for evaluating the theorems -/

def wSell10 : Order := ⟨1, OrderType.Sell, 100, 10⟩

def wBuy4 : Order := ⟨2, OrderType.Buy, 100, 4⟩

def wBook1 : OrderBook := [wSell10].foldl addOrder1 OrderBook.empty

def fill0 : Fill := ⟨100, 1, 4, 0, 10, 6, 4⟩

/-! ### The claims -/

/-- C1: for every reachable book state and every submitted order, after
`add_order` returns the book is not crossed: every resting bid price is
strictly below every resting ask price (vacuously so when a side is
empty). -/
theorem add_order_not_crossed (b : OrderBook) (o : Order) (hb : Reachable b) :
    NotCrossed ((add_order b o).1) :=
  (WF_step b o (reachable_WF b hb)).nocross

theorem add_order_not_crossed_witness : NotCrossed ((add_order wBook1 wBuy4).1) :=
  add_order_not_crossed wBook1 wBuy4 ⟨[wSell10], rfl⟩

/-- C2: in every trade step of `add_order` the amount subtracted from the
incoming order's quantity equals the amount subtracted from the resting
order's quantity, and both equal `min` of the two quantities before the
step. -/
theorem add_order_fill_conservation (b : OrderBook) (o : Order) :
    ∀ f ∈ (add_order b o).2,
      f.taker_before - f.taker_after = f.traded ∧
      f.maker_before - f.maker_after = f.traded ∧
      f.traded = min f.taker_before f.maker_before := by
  intro f hf
  obtain ⟨-, hmin, hta, hma⟩ := add_order_fills_spec b o f hf
  refine ⟨?_, ?_, hmin⟩ <;> omega

theorem add_order_fill_conservation_witness :
    fill0.taker_before - fill0.taker_after = fill0.traded ∧
    fill0.maker_before - fill0.maker_after = fill0.traded ∧
    fill0.traded = min fill0.taker_before fill0.maker_before :=
  add_order_fill_conservation wBook1 wBuy4 fill0 (by decide)

/-- C4: an order trades only at crossing prices (a buy at ask prices at or
below its limit, a sell at bid prices at or above its limit), and every
opposing level whose price does not satisfy the crossing condition is
still present, untouched, after `add_order`. -/
theorem add_order_price_priority (b : OrderBook) (o : Order) :
    (∀ f ∈ (add_order b o).2, fillPriceOK o f) ∧
    (∀ pl ∈ oppSide b o.order_type, ¬ levelCrosses o pl.1 →
      pl ∈ oppSide ((add_order b o).1) o.order_type) := by
  constructor
  · intro f hf
    exact (add_order_fills_spec b o f hf).1
  · intro pl hpl hcross
    cases ht : o.order_type with
    | Buy =>
      simp only [oppSide, ht] at hpl
      have hlt : o.price < pl.1 := by
        simp only [levelCrosses, ht] at hcross
        omega
      simp only [oppSide, ht, add_order, match_buy_order]
      by_cases hq : 0 < (match_buy_loop o.price o.quantity b.asks).2.1
      · simp only [if_pos hq]
        exact buy_loop_untouched o.price o.quantity b.asks pl hpl hlt
      · simp only [if_neg hq]
        exact buy_loop_untouched o.price o.quantity b.asks pl hpl hlt
    | Sell =>
      simp only [oppSide, ht] at hpl
      have hlt : pl.1 < o.price := by
        simp only [levelCrosses, ht] at hcross
        omega
      simp only [oppSide, ht, add_order, match_sell_order]
      by_cases hq : 0 < (match_sell_loop o.price o.quantity b.bids).2.1
      · simp only [if_pos hq]
        exact sell_loop_untouched o.price o.quantity b.bids pl hpl hlt
      · simp only [if_neg hq]
        exact sell_loop_untouched o.price o.quantity b.bids pl hpl hlt

theorem add_order_price_priority_witness : fillPriceOK wBuy4 fill0 :=
  (add_order_price_priority wBook1 wBuy4).1 fill0 (by decide)

/-- C5: after `add_order` on any reachable book, every price key present
on either side maps to a non-empty queue, and every resting order in any
queue has strictly positive quantity (consumed orders and emptied levels
are removed before the call returns). -/
theorem add_order_level_invariants (b : OrderBook) (o : Order) (hb : Reachable b) :
    (∀ pl ∈ ((add_order b o).1).bids, pl.2 ≠ [] ∧ ∀ r ∈ pl.2, 0 < r.quantity) ∧
    (∀ pl ∈ ((add_order b o).1).asks, pl.2 ≠ [] ∧ ∀ r ∈ pl.2, 0 < r.quantity) :=
  ⟨(WF_step b o (reachable_WF b hb)).bidsWF, (WF_step b o (reachable_WF b hb)).asksWF⟩

theorem add_order_level_invariants_witness :
    sideWF ((add_order wBook1 wBuy4).1).bids ∧ sideWF ((add_order wBook1 wBuy4).1).asks :=
  ⟨(add_order_level_invariants wBook1 wBuy4 ⟨[wSell10], rfl⟩).1,
   (add_order_level_invariants wBook1 wBuy4 ⟨[wSell10], rfl⟩).2⟩

/-- C8: `add_order` is a total function (its matching loops are structural
recursions accepted by the termination checker), and the number of trade
steps it performs is bounded by the number of orders resting on the
opposing side when it is called. -/
theorem add_order_fill_count_le (b : OrderBook) (o : Order) :
    (add_order b o).2.length ≤ sideOrderCount (oppSide b o.order_type) := by
  cases ht : o.order_type with
  | Buy =>
    simp only [add_order, ht, match_buy_order, oppSide]
    by_cases hq : 0 < (match_buy_loop o.price o.quantity b.asks).2.1
    · simp only [if_pos hq]
      exact buy_loop_len o.price o.quantity b.asks
    · simp only [if_neg hq]
      exact buy_loop_len o.price o.quantity b.asks
  | Sell =>
    simp only [add_order, ht, match_sell_order, oppSide]
    by_cases hq : 0 < (match_sell_loop o.price o.quantity b.bids).2.1
    · simp only [if_pos hq]
      exact sell_loop_len o.price o.quantity b.bids
    · simp only [if_neg hq]
      exact sell_loop_len o.price o.quantity b.bids

/-- C10: the matching routines cannot panic.  In the embedding the
`get_mut(&best_price).unwrap()` of the just-peeked best key is the lookup
of the head key, which always succeeds, and the two quantity
subtractions of every trade step never underflow because the traded
amount is the minimum of the two quantities. -/
theorem add_order_no_panic :
    (∀ (p : Nat) (lvl : Level) (rest : Side), findLevel? ((p, lvl) :: rest) p = some lvl) ∧
    (∀ (b : OrderBook) (o : Order), ∀ f ∈ (add_order b o).2,
      f.traded ≤ f.taker_before ∧ f.traded ≤ f.maker_before) := by
  constructor
  · intro p lvl rest
    simp [findLevel?]
  · intro b o f hf
    obtain ⟨-, hmin, -, -⟩ := add_order_fills_spec b o f hf
    omega

theorem add_order_no_panic_witness :
    fill0.traded ≤ fill0.taker_before ∧ fill0.traded ≤ fill0.maker_before :=
  add_order_no_panic.2 wBook1 wBuy4 fill0 (by decide)

/-- One step of the inner loop at the front of a level: either the front
order survives (with reduced but positive quantity) and the rest of the
queue is untouched, or it is fully consumed and removed and the leftover
quantity proceeds to the rest. -/
lemma fillLevel_front_step (p q : Nat) (A : Order) (rest : Level) (hA : 0 < A.quantity) :
    (q < A.quantity ∧
      (fillLevel p q (A :: rest)).1 = { A with quantity := A.quantity - q } :: rest) ∨
    (A.quantity ≤ q ∧
      (fillLevel p q (A :: rest)).1 = (fillLevel p (q - A.quantity) rest).1) := by
  by_cases hq : q = 0
  · subst hq
    left
    refine ⟨hA, ?_⟩
    rw [fillLevel_zero]
    rfl
  · by_cases hcase : q < A.quantity
    · left
      refine ⟨hcase, ?_⟩
      have hmin : min q A.quantity = q := by omega
      have hm : ¬ (A.quantity - q = 0) := by omega
      simp [fillLevel, hq, hmin, hm]
    · right
      have hle : A.quantity ≤ q := by omega
      refine ⟨hle, ?_⟩
      have hmin : min q A.quantity = A.quantity := by omega
      simp [fillLevel, hq, hmin, Nat.sub_self]

/-- C3: FIFO within a price level.  For resting orders `A` before `B` at
one price (with any orders `mid` between them and `post` behind), an
opposing fill either leaves `A` in place with positive remaining
quantity and `B` (and everything else behind `A`) completely untouched,
or fully consumes and removes `A` and lets only the leftover quantity
proceed down the queue: `B` is never reduced before `A` is exhausted and
removed. -/
theorem fillLevel_fifo (p q : Nat) (A B : Order) (mid post : Level)
    (hA : 0 < A.quantity) :
    (q < A.quantity ∧
      (fillLevel p q (A :: (mid ++ B :: post))).1 =
        { A with quantity := A.quantity - q } :: (mid ++ B :: post)) ∨
    (A.quantity ≤ q ∧
      (fillLevel p q (A :: (mid ++ B :: post))).1 =
        (fillLevel p (q - A.quantity) (mid ++ B :: post)).1) :=
  fillLevel_front_step p q A (mid ++ B :: post) hA

def wA : Order := ⟨1, OrderType.Buy, 100, 5⟩

def wB : Order := ⟨2, OrderType.Buy, 100, 3⟩

theorem fillLevel_fifo_witness :
    (6 < wA.quantity ∧
      (fillLevel 100 6 (wA :: [wB])).1 = { wA with quantity := wA.quantity - 6 } :: [wB]) ∨
    (wA.quantity ≤ 6 ∧
      (fillLevel 100 6 (wA :: [wB])).1 = (fillLevel 100 (6 - wA.quantity) [wB]).1) :=
  fillLevel_fifo 100 6 wA wB [] [] (by decide)

/-- C9: submitting an order with quantity zero is a complete no-op: no
trade step happens, nothing is parked, and the book is returned exactly
as it was. -/
theorem add_order_zero_quantity_noop (b : OrderBook) (o : Order) (h : o.quantity = 0) :
    add_order b o = (b, []) := by
  cases ht : o.order_type with
  | Buy => simp [add_order, ht, match_buy_order, h, buy_loop_zero]
  | Sell => simp [add_order, ht, match_sell_order, h, sell_loop_zero]

def wZero : Order := ⟨3, OrderType.Buy, 50, 0⟩

theorem add_order_zero_quantity_noop_witness : add_order wBook1 wZero = (wBook1, []) :=
  add_order_zero_quantity_noop wBook1 wZero rfl

/-- C6: an order whose price crosses no opposing level leaves the
opposing side completely unchanged, produces no fill, and is appended
verbatim (quantity, id, price unchanged) as the new tail of its own
side's level at its price, creating that level if absent; all other own
side levels are unchanged. -/
theorem add_order_noncrossing_frame (b : OrderBook) (o : Order) (hq : 0 < o.quantity)
    (hbs : sortedDesc b.bids) (has : sortedAsc b.asks)
    (hnc : ∀ pl ∈ oppSide b o.order_type, ¬ levelCrosses o pl.1) :
    (add_order b o).2 = [] ∧
    oppSide ((add_order b o).1) o.order_type = oppSide b o.order_type ∧
    findLevel? (ownSide ((add_order b o).1) o.order_type) o.price =
      some ((findLevel? (ownSide b o.order_type) o.price).getD [] ++ [o]) ∧
    (∀ x : Nat, x ≠ o.price →
      findLevel? (ownSide ((add_order b o).1) o.order_type) x =
        findLevel? (ownSide b o.order_type) x) := by
  cases ht : o.order_type with
  | Buy =>
    have hlt : ∀ pl ∈ b.asks, o.price < pl.1 := by
      intro pl hpl
      have h1 := hnc pl (by simpa [oppSide, ht] using hpl)
      simp only [levelCrosses, ht] at h1
      omega
    have hloop := buy_loop_nocross o.price o.quantity b.asks hlt
    simp only [add_order, ht, match_buy_order, hloop, oppSide, ownSide]
    rw [if_pos hq]
    refine ⟨rfl, rfl, ?_, ?_⟩
    · rw [← ht]
      exact findLevel?_insertBid_self b.bids o.price o hbs
    · intro x hx
      exact findLevel?_insertBid_ne b.bids o.price _ x hx
  | Sell =>
    have hlt : ∀ pl ∈ b.bids, pl.1 < o.price := by
      intro pl hpl
      have h1 := hnc pl (by simpa [oppSide, ht] using hpl)
      simp only [levelCrosses, ht] at h1
      omega
    have hloop := sell_loop_nocross o.price o.quantity b.bids hlt
    simp only [add_order, ht, match_sell_order, hloop, oppSide, ownSide]
    rw [if_pos hq]
    refine ⟨rfl, rfl, ?_, ?_⟩
    · rw [← ht]
      exact findLevel?_insertAsk_self b.asks o.price o has
    · intro x hx
      exact findLevel?_insertAsk_ne b.asks o.price _ x hx

def wSell101 : Order := ⟨3, OrderType.Sell, 101, 5⟩

def wBook2 : OrderBook := ⟨[], [(101, [wSell101])]⟩

def wBuy100 : Order := ⟨4, OrderType.Buy, 100, 5⟩

theorem add_order_noncrossing_frame_witness :
    (add_order wBook2 wBuy100).2 = [] ∧
    oppSide ((add_order wBook2 wBuy100).1) wBuy100.order_type =
      oppSide wBook2 wBuy100.order_type ∧
    findLevel? (ownSide ((add_order wBook2 wBuy100).1) wBuy100.order_type) wBuy100.price =
      some ((findLevel? (ownSide wBook2 wBuy100.order_type) wBuy100.price).getD []
        ++ [wBuy100]) := by
  have h := add_order_noncrossing_frame wBook2 wBuy100 (by decide)
    (by simp [sortedDesc, wBook2]) (by simp [sortedAsc, wBook2]) (by decide)
  exact ⟨h.1, h.2.1, h.2.2.1⟩

/-- C7: a trade step that exhausts both the incoming and the resting
order simultaneously (equal quantities, crossing price) removes the
resting order from the book (and its level, if thereby emptied), and the
incoming order is not parked: the order's own side is untouched. -/
theorem add_order_exact_fill (b : OrderBook) (o : Order) (p : Nat) (r : Order)
    (restQ : Level) (restLevels : Side)
    (hq : 0 < o.quantity) (heq : o.quantity = r.quantity)
    (hside : oppSide b o.order_type = (p, r :: restQ) :: restLevels)
    (hcross : levelCrosses o p) :
    ownSide ((add_order b o).1) o.order_type = ownSide b o.order_type ∧
    oppSide ((add_order b o).1) o.order_type =
      (if restQ.isEmpty then restLevels else (p, restQ) :: restLevels) := by
  cases ht : o.order_type with
  | Buy =>
    simp only [oppSide, ht] at hside
    simp only [levelCrosses, ht] at hcross
    have hq' : ¬ (o.quantity = 0) := by omega
    have hc' : ¬ (o.price < p) := by omega
    have hmin : min o.quantity r.quantity = o.quantity := by omega
    have hsub : r.quantity - o.quantity = 0 := by omega
    have hfl : fillLevel p o.quantity (r :: restQ) =
        (restQ, 0, [⟨p, r.id, o.quantity, 0, r.quantity, 0, o.quantity⟩]) := by
      simp [fillLevel, hq', hmin, hsub, Nat.sub_self, fillLevel_zero]
    cases restQ with
    | nil =>
      have hloop : match_buy_loop o.price o.quantity b.asks =
          (restLevels, 0, [⟨p, r.id, o.quantity, 0, r.quantity, 0, o.quantity⟩]) := by
        rw [hside]
        simp [match_buy_loop, hq', hc', hfl, buy_loop_zero]
      simp only [add_order, ht, match_buy_order, hloop]
      constructor
      · simp [ownSide, ht]
      · simp [oppSide, ht]
    | cons a as =>
      have hloop : match_buy_loop o.price o.quantity b.asks =
          ((p, a :: as) :: restLevels, 0,
            [⟨p, r.id, o.quantity, 0, r.quantity, 0, o.quantity⟩]) := by
        rw [hside]
        simp [match_buy_loop, hq', hc', hfl]
      simp only [add_order, ht, match_buy_order, hloop]
      constructor
      · simp [ownSide, ht]
      · simp [oppSide, ht]
  | Sell =>
    simp only [oppSide, ht] at hside
    simp only [levelCrosses, ht] at hcross
    have hq' : ¬ (o.quantity = 0) := by omega
    have hc' : ¬ (p < o.price) := by omega
    have hmin : min o.quantity r.quantity = o.quantity := by omega
    have hsub : r.quantity - o.quantity = 0 := by omega
    have hfl : fillLevel p o.quantity (r :: restQ) =
        (restQ, 0, [⟨p, r.id, o.quantity, 0, r.quantity, 0, o.quantity⟩]) := by
      simp [fillLevel, hq', hmin, hsub, Nat.sub_self, fillLevel_zero]
    cases restQ with
    | nil =>
      have hloop : match_sell_loop o.price o.quantity b.bids =
          (restLevels, 0, [⟨p, r.id, o.quantity, 0, r.quantity, 0, o.quantity⟩]) := by
        rw [hside]
        simp [match_sell_loop, hq', hc', hfl, sell_loop_zero]
      simp only [add_order, ht, match_sell_order, hloop]
      constructor
      · simp [ownSide, ht]
      · simp [oppSide, ht]
    | cons a as =>
      have hloop : match_sell_loop o.price o.quantity b.bids =
          ((p, a :: as) :: restLevels, 0,
            [⟨p, r.id, o.quantity, 0, r.quantity, 0, o.quantity⟩]) := by
        rw [hside]
        simp [match_sell_loop, hq', hc', hfl]
      simp only [add_order, ht, match_sell_order, hloop]
      constructor
      · simp [ownSide, ht]
      · simp [oppSide, ht]

def wBuyFull : Order := ⟨5, OrderType.Buy, 100, 10⟩

theorem add_order_exact_fill_witness :
    ownSide ((add_order wBook1 wBuyFull).1) wBuyFull.order_type =
      ownSide wBook1 wBuyFull.order_type ∧
    oppSide ((add_order wBook1 wBuyFull).1) wBuyFull.order_type =
      (if ([] : Level).isEmpty then ([] : Side) else (100, ([] : Level)) :: ([] : Side)) :=
  add_order_exact_fill wBook1 wBuyFull 100 wSell10 [] [] (by decide) (by decide)
    (by decide) (by decide)
